import Mathlib

/-!
Shallow embedding of ssmenv.go (package ssmenv of Finatext/ssmenv-go).

Strings are modelled as lists of characters.  The AWS SSM client is an
opaque capability: a function from a GetParameters input to either an
error cause or a GetParameters output, exactly the shape the `ssmClient`
interface of the source exposes.  Go maps are modelled as association
lists with unique keys; `setKey` is map assignment and `getKey` is map
lookup.  The nondeterministic iteration order of a Go map is fixed to
insertion order, which is one admissible order.  `ReplacedEnvT` is
`ReplacedEnv` instrumented with the list of GetParameters calls issued,
so that call-count properties of the spec can be stated.
-/

namespace Ssmenv

/-- Strings as lists of characters. -/
abbrev Str : Type := List Char

/-- Convenience conversion from Lean string literals. -/
def strL (s : String) : Str := s.toList

/-- The constant `ssmPrefix = "ssm://"` of ssmenv.go. -/
def ssmPrefix : Str := strL "ssm://"

/-- `strings.SplitN(env, "=", 2)`: split at the first `=`.  `none` models
the length-1 result Go returns when the separator does not occur. -/
def splitN2 : Str → Option (Str × Str)
  | [] => none
  | c :: cs =>
    if c = '=' then some ([], cs)
    else (splitN2 cs).map fun kv => (c :: kv.1, kv.2)

/-- `strings.HasPrefix s p`. -/
def hasPrefix : Str → Str → Bool
  | _, [] => true
  | [], _ :: _ => false
  | c :: cs, p :: ps => c = p && hasPrefix cs ps

/-- `strings.TrimPrefix s p`. -/
def trimPrefix (s p : Str) : Str :=
  if hasPrefix s p then s.drop p.length else s

/-- A Go `map[string]string`, as an association list with unique keys. -/
abbrev EnvMap : Type := List (Str × Str)

/-- Go map assignment `m[k] = v`. -/
def setKey : EnvMap → Str → Str → EnvMap
  | [], k, v => [(k, v)]
  | (k0, v0) :: rest, k, v =>
    if k0 = k then (k, v) :: rest else (k0, v0) :: setKey rest k v

/-- Go map lookup `v, ok := m[k]`. -/
def getKey : EnvMap → Str → Option Str
  | [], _ => none
  | (k0, v0) :: rest, k => if k0 = k then some v0 else getKey rest k

/-- The keys of a map, in insertion order. -/
def keysOf (m : EnvMap) : List Str := m.map Prod.fst

/-- One element of `GetParametersOutput.Parameters`: an SSM parameter,
whose name and value are nullable in the AWS SDK. -/
structure Parameter where
  Name : Option Str
  Value : Option Str
deriving DecidableEq

/-- The response of the `GetParameters` AWS API operation. -/
structure GetParametersOutput where
  Parameters : List Parameter
  InvalidParameters : List Str
deriving DecidableEq

/-- The request of the `GetParameters` AWS API operation. -/
structure GetParametersInput where
  Names : List Str
  WithDecryption : Bool
deriving DecidableEq

/-- The `ssmClient` interface: one `GetParameters` method.  The error
cause is opaque; a string models it. -/
abbrev Client : Type := GetParametersInput → Except Str GetParametersOutput

/-- The error types of ssmenv.go, as one tagged union. -/
inductive SsmError where
  | invalidEnvVarFormat (originalEnvVar : Str)
  | parameterNotFound (key : Str)
  | getParameters (cause : Str)
  | invalidParameters (invalidParameters : List Str)
  | nullParameter
deriving DecidableEq

deriving instance DecidableEq for Except

/-- The loop of `batchFetch` building the name-to-value map from the
response, failing on a parameter with null name or value. -/
def buildFetchResult : List Parameter → EnvMap → Except SsmError EnvMap
  | [], ret => .ok ret
  | p :: rest, ret =>
    match p.Name, p.Value with
    | some n, some v => buildFetchResult rest (setKey ret n v)
    | _, _ => .error .nullParameter

/-- `batchFetch` of ssmenv.go: one `GetParameters` call with decryption,
then validation of the response. -/
def batchFetch (cli : Client) (keys : List Str) : Except SsmError EnvMap :=
  match cli (GetParametersInput.mk keys true) with
  | .error e => .error (.getParameters e)
  | .ok res =>
    if 0 < res.InvalidParameters.length then
      .error (.invalidParameters res.InvalidParameters)
    else buildFetchResult res.Parameters []

/-- The first loop of `ReplacedEnv`: split each entry at the first `=`,
record it into `orig`, and append the trimmed key of each indirected
value to `ssmKeys`. -/
def parseEnvs : List Str → EnvMap → List Str → Except SsmError (EnvMap × List Str)
  | [], orig, ssmKeys => .ok (orig, ssmKeys)
  | env :: rest, orig, ssmKeys =>
    match splitN2 env with
    | none => .error (.invalidEnvVarFormat env)
    | some (k, v) =>
      parseEnvs rest (setKey orig k v)
        (if hasPrefix v ssmPrefix then ssmKeys ++ [trimPrefix v ssmPrefix] else ssmKeys)

/-- The second loop of `ReplacedEnv`: overwrite every indirected value
with its fetched value, failing when the fetch result lacks its key. -/
def resolveEntries (ps : EnvMap) : EnvMap → Except SsmError EnvMap
  | [] => .ok []
  | (k, v) :: rest =>
    if hasPrefix v ssmPrefix then
      match getKey ps (trimPrefix v ssmPrefix) with
      | none => .error (.parameterNotFound (trimPrefix v ssmPrefix))
      | some val =>
        match resolveEntries ps rest with
        | .error e => .error e
        | .ok m => .ok ((k, val) :: m)
    else
      match resolveEntries ps rest with
      | .error e => .error e
      | .ok m => .ok ((k, v) :: m)

/-- `ReplacedEnv` of ssmenv.go, instrumented with the list of
`GetParameters` calls issued during the run. -/
def ReplacedEnvT (cli : Client) (envs : List Str) :
    Except SsmError EnvMap × List GetParametersInput :=
  match parseEnvs envs [] [] with
  | .error e => (.error e, [])
  | .ok (orig, ssmKeys) =>
    if ssmKeys.length = 0 then (.ok orig, [])
    else
      match batchFetch cli ssmKeys with
      | .error e => (.error e, [GetParametersInput.mk ssmKeys true])
      | .ok ps => (resolveEntries ps orig, [GetParametersInput.mk ssmKeys true])

/-- `ReplacedEnv` of ssmenv.go: the returned mapping or error. -/
def ReplacedEnv (cli : Client) (envs : List Str) : Except SsmError EnvMap :=
  (ReplacedEnvT cli envs).1

/-- The `GetParameters` calls a run of `ReplacedEnv` issues. -/
def fetchCalls (cli : Client) (envs : List Str) : List GetParametersInput :=
  (ReplacedEnvT cli envs).2

/-- The parameter keys referenced by indirected values, in entry order,
duplicates included: the value `ssmKeys` holds when the parse loop ends. -/
def referencedKeys (envs : List Str) : List Str :=
  envs.filterMap fun env =>
    match splitN2 env with
    | none => none
    | some (_, v) =>
      if hasPrefix v ssmPrefix then some (trimPrefix v ssmPrefix) else none

/-- The map the parse loop builds on top of `acc`, ignoring malformed
entries (which in the real loop abort the run before this map is used). -/
def parsedMapFrom (acc : EnvMap) (envs : List Str) : EnvMap :=
  envs.foldl
    (fun m env =>
      match splitN2 env with
      | none => m
      | some (k, v) => setKey m k v)
    acc

/-- The key-to-value mapping parsed from the entries. -/
def parsedMap (envs : List Str) : EnvMap := parsedMapFrom [] envs

/-- The value a single map value resolves to, given fetch result `ps`. -/
def valResolve (ps : EnvMap) (v : Str) : Str :=
  if hasPrefix v ssmPrefix then (getKey ps (trimPrefix v ssmPrefix)).getD v else v

/-- One entry after the resolution loop, given fetch result `ps`. -/
def resolveOne (ps : EnvMap) (kv : Str × Str) : Str × Str :=
  (kv.1, valResolve ps kv.2)

/-- Re-serialization of a resolved mapping as `KEY=VALUE` entries. -/
def serializeEnv (m : EnvMap) : List Str :=
  m.map fun kv => kv.1 ++ '=' :: kv.2

/-- The value of the last well-formed entry with key `k`, if any. -/
def lastEntryValue : List Str → Str → Option Str
  | [], _ => none
  | env :: rest, k =>
    match lastEntryValue rest k with
    | some v => some v
    | none =>
      match splitN2 env with
      | some (k0, v0) => if k0 = k then some v0 else none
      | none => none

/-- A stub client answering from a fixed table, silently omitting the
requested names the table lacks, reporting no invalid parameter. -/
def cliStub (tbl : EnvMap) : Client := fun inp =>
  .ok
    (GetParametersOutput.mk
      (inp.Names.filterMap fun n =>
        (getKey tbl n).map fun v => Parameter.mk (some n) (some v))
      [])

/-- A stub client reporting the single name `x` as invalid. -/
def cliInvalid : Client := fun _ =>
  .ok (GetParametersOutput.mk [] [strL "x"])

/-! Helper lemmas about the embedded operations. -/

theorem getKey_setKey (m : EnvMap) (k v k' : Str) :
    getKey (setKey m k v) k' = if k = k' then some v else getKey m k' := by
  induction m with
  | nil =>
    by_cases h : k = k' <;> simp [setKey, getKey, h]
  | cons kv rest ih =>
    obtain ⟨k0, v0⟩ := kv
    by_cases h0 : k0 = k
    · subst h0
      by_cases h : k0 = k' <;> simp [setKey, getKey, h]
    · by_cases h : k0 = k'
      · have hkk : ¬ k' = k := fun he => h0 (h.trans he)
        have hkk2 : ¬ k = k' := fun he => hkk he.symm
        simp [setKey, getKey, h0, h, hkk, hkk2]
      · simp [setKey, getKey, h0, h, ih]

theorem mem_setKey (m : EnvMap) (k v : Str) (kv : Str × Str)
    (h : kv ∈ setKey m k v) : kv = (k, v) ∨ kv ∈ m := by
  induction m with
  | nil => simpa [setKey] using h
  | cons kv0 rest ih =>
    obtain ⟨k0, v0⟩ := kv0
    by_cases h0 : k0 = k
    · subst h0
      simp only [setKey, if_pos rfl] at h
      rcases List.mem_cons.mp h with h1 | h1
      · exact Or.inl h1
      · exact Or.inr (List.mem_cons_of_mem _ h1)
    · simp only [setKey, if_neg h0] at h
      rcases List.mem_cons.mp h with h1 | h1
      · exact Or.inr (List.mem_cons.mpr (Or.inl h1))
      · rcases ih h1 with h2 | h2
        · exact Or.inl h2
        · exact Or.inr (List.mem_cons_of_mem _ h2)

theorem keysOf_setKey_of_mem (m : EnvMap) (k v : Str) :
    k ∈ keysOf m → keysOf (setKey m k v) = keysOf m := by
  induction m with
  | nil => intro h; simp [keysOf] at h
  | cons kv0 rest ih =>
    obtain ⟨k0, v0⟩ := kv0
    intro h
    by_cases h0 : k0 = k
    · simp [setKey, keysOf, h0]
    · have hk : k ∈ keysOf rest := by
        rcases List.mem_cons.mp h with h1 | h1
        · exact absurd h1.symm h0
        · exact h1
      have hstep : setKey ((k0, v0) :: rest) k v = (k0, v0) :: setKey rest k v := by
        simp [setKey, h0]
      rw [hstep]
      show k0 :: keysOf (setKey rest k v) = k0 :: keysOf rest
      rw [ih hk]

theorem setKey_of_not_mem (m : EnvMap) (k v : Str) (h : k ∉ keysOf m) :
    setKey m k v = m ++ [(k, v)] := by
  induction m with
  | nil => simp [setKey]
  | cons kv0 rest ih =>
    obtain ⟨k0, v0⟩ := kv0
    simp only [keysOf, List.map_cons, List.mem_cons, not_or] at h
    have h0 : ¬ k0 = k := fun he => h.1 he.symm
    simp [setKey, h0, ih (by simpa [keysOf] using h.2)]

theorem nodup_keysOf_setKey (m : EnvMap) (k v : Str)
    (h : (keysOf m).Nodup) : (keysOf (setKey m k v)).Nodup := by
  by_cases hk : k ∈ keysOf m
  · rw [keysOf_setKey_of_mem m k v hk]; exact h
  · rw [setKey_of_not_mem m k v hk]
    have heq : keysOf (m ++ [(k, v)]) = keysOf m ++ [k] := by simp [keysOf]
    rw [heq, List.nodup_append]
    exact ⟨h, List.nodup_singleton _,
      fun a ha hb => hk (by rwa [List.mem_singleton.mp hb] at ha)⟩

theorem getKey_mem (m : EnvMap) (k v : Str) (h : getKey m k = some v) :
    (k, v) ∈ m := by
  induction m with
  | nil => simp [getKey] at h
  | cons kv0 rest ih =>
    obtain ⟨k0, v0⟩ := kv0
    by_cases h0 : k0 = k
    · subst h0
      simp [getKey] at h
      subst h
      exact List.mem_cons_self _ _
    · simp only [getKey, if_neg h0] at h
      exact List.mem_cons_of_mem _ (ih h)

theorem splitN2_some (e : Str) :
    ∀ p : Str × Str, splitN2 e = some p → e = p.1 ++ '=' :: p.2 ∧ '=' ∉ p.1 := by
  induction e with
  | nil => intro p h; simp [splitN2] at h
  | cons c cs ih =>
    intro p h
    by_cases hc : c = '='
    · subst hc
      simp [splitN2] at h
      subst h
      simp
    · simp only [splitN2, if_neg hc, Option.map_eq_some'] at h
      obtain ⟨q, hq, hfq⟩ := h
      subst hfq
      obtain ⟨he, hni⟩ := ih q hq
      refine ⟨by simpa using congrArg (fun t => c :: t) he, ?_⟩
      simp only [List.mem_cons, not_or]
      exact ⟨fun h1 => hc h1.symm, hni⟩

theorem splitN2_isSome_of_mem (e : Str) (h : '=' ∈ e) :
    (splitN2 e).isSome := by
  induction e with
  | nil => simp at h
  | cons c cs ih =>
    by_cases hc : c = '='
    · simp [splitN2, hc]
    · have hcs : '=' ∈ cs := by
        rcases List.mem_cons.mp h with h1 | h1
        · exact absurd h1.symm hc
        · exact h1
      obtain ⟨q, hq⟩ := Option.isSome_iff_exists.mp (ih hcs)
      simp [splitN2, hc, hq]

theorem splitN2_append (k v : Str) (h : '=' ∉ k) :
    splitN2 (k ++ '=' :: v) = some (k, v) := by
  induction k with
  | nil => simp [splitN2]
  | cons c cs ih =>
    simp only [List.mem_cons, not_or] at h
    have hc : ¬ c = '=' := fun he => h.1 he.symm
    have hcs : splitN2 (cs ++ '=' :: v) = some (cs, v) := ih h.2
    simp [splitN2, hc, hcs]

theorem parseEnvs_ok (envs : List Str) :
    ∀ (acc : EnvMap) (ks : List Str),
      (∀ e ∈ envs, (splitN2 e).isSome) →
      parseEnvs envs acc ks =
        .ok (parsedMapFrom acc envs, ks ++ referencedKeys envs) := by
  induction envs with
  | nil => intro acc ks _; simp [parseEnvs, parsedMapFrom, referencedKeys]
  | cons env rest ih =>
    intro acc ks h
    obtain ⟨kv, hkv⟩ :=
      Option.isSome_iff_exists.mp (h env (List.mem_cons_self _ _))
    obtain ⟨k, v⟩ := kv
    have hrest : ∀ e ∈ rest, (splitN2 e).isSome :=
      fun e he => h e (List.mem_cons_of_mem _ he)
    simp only [parseEnvs, hkv]
    simp only [parsedMapFrom, referencedKeys, List.foldl_cons, List.filterMap_cons, hkv]
    by_cases hp : hasPrefix v ssmPrefix
    · simp only [hp, if_pos, ih (setKey acc k v) (ks ++ [trimPrefix v ssmPrefix]) hrest]
      rw [List.append_assoc]
      rfl
    · simp only [hp, Bool.false_eq_true, if_false,
        ih (setKey acc k v) ks hrest]
      rfl

theorem parseEnvs_wf (envs : List Str) :
    ∀ (acc : EnvMap) (ks : List Str) (r : EnvMap × List Str),
      parseEnvs envs acc ks = .ok r → ∀ e ∈ envs, (splitN2 e).isSome := by
  induction envs with
  | nil => intro _ _ _ _ e he; simp at he
  | cons env rest ih =>
    intro acc ks r h e he
    cases hkv : splitN2 env with
    | none =>
      simp only [parseEnvs, hkv] at h
      exact Except.noConfusion h
    | some kv =>
      obtain ⟨k, v⟩ := kv
      simp only [parseEnvs, hkv] at h
      rcases List.mem_cons.mp he with he' | he'
      · subst he'; simp [hkv]
      · exact ih _ _ r h e he'

theorem parseEnvs_err (envs : List Str) :
    ∀ (acc : EnvMap) (ks : List Str),
      (∃ e ∈ envs, splitN2 e = none) →
      ∃ e, e ∈ envs ∧ splitN2 e = none ∧
        parseEnvs envs acc ks = .error (.invalidEnvVarFormat e) := by
  induction envs with
  | nil => intro _ _ h; simp at h
  | cons env rest ih =>
    intro acc ks h
    cases hkv : splitN2 env with
    | none =>
      exact ⟨env, List.mem_cons_self _ _, hkv, by simp only [parseEnvs, hkv]⟩
    | some kv =>
      obtain ⟨k, v⟩ := kv
      obtain ⟨e, he, hesp⟩ := h
      have he' : e ∈ rest := by
        rcases List.mem_cons.mp he with h1 | h1
        · subst h1; rw [hkv] at hesp; simp at hesp
        · exact h1
      obtain ⟨e', he'', hsp', hrun⟩ := ih _ _ ⟨e, he', hesp⟩
      exact ⟨e', List.mem_cons_of_mem _ he'', hsp',
        by simp only [parseEnvs, hkv]; exact hrun⟩

theorem parsedMapFrom_cons_none (acc : EnvMap) (env : Str) (rest : List Str)
    (h : splitN2 env = none) :
    parsedMapFrom acc (env :: rest) = parsedMapFrom acc rest := by
  simp [parsedMapFrom, h]

theorem parsedMapFrom_cons_some (acc : EnvMap) (env : Str) (rest : List Str)
    (k v : Str) (h : splitN2 env = some (k, v)) :
    parsedMapFrom acc (env :: rest) = parsedMapFrom (setKey acc k v) rest := by
  simp [parsedMapFrom, h]

theorem nodup_keysOf_parsedMapFrom (envs : List Str) :
    ∀ acc : EnvMap, (keysOf acc).Nodup →
      (keysOf (parsedMapFrom acc envs)).Nodup := by
  induction envs with
  | nil => intro acc h; simpa [parsedMapFrom] using h
  | cons env rest ih =>
    intro acc h
    cases hkv : splitN2 env with
    | none =>
      rw [parsedMapFrom_cons_none acc env rest hkv]
      exact ih acc h
    | some kv =>
      obtain ⟨k, v⟩ := kv
      rw [parsedMapFrom_cons_some acc env rest k v hkv]
      exact ih _ (nodup_keysOf_setKey acc k v h)

theorem mem_parsedMapFrom (envs : List Str) :
    ∀ (acc : EnvMap) (kv : Str × Str), kv ∈ parsedMapFrom acc envs →
      kv ∈ acc ∨ ∃ e ∈ envs, splitN2 e = some kv := by
  induction envs with
  | nil => intro acc kv h; exact Or.inl (by simpa [parsedMapFrom] using h)
  | cons env rest ih =>
    intro acc kv h
    cases hkv : splitN2 env with
    | none =>
      rw [parsedMapFrom_cons_none acc env rest hkv] at h
      rcases ih acc kv h with h1 | ⟨e, he, hsp⟩
      · exact Or.inl h1
      · exact Or.inr ⟨e, List.mem_cons_of_mem _ he, hsp⟩
    | some kv0 =>
      obtain ⟨k0, v0⟩ := kv0
      rw [parsedMapFrom_cons_some acc env rest k0 v0 hkv] at h
      rcases ih _ kv h with h1 | ⟨e, he, hsp⟩
      · rcases mem_setKey acc k0 v0 kv h1 with h2 | h2
        · exact Or.inr ⟨env, List.mem_cons_self _ _, by rw [hkv, h2]⟩
        · exact Or.inl h2
      · exact Or.inr ⟨e, List.mem_cons_of_mem _ he, hsp⟩

theorem getKey_map (l : EnvMap) (f : Str → Str) (k : Str) :
    getKey (l.map fun kv => (kv.1, f kv.2)) k = (getKey l k).map f := by
  induction l with
  | nil => simp [getKey]
  | cons kv rest ih =>
    obtain ⟨k0, v0⟩ := kv
    by_cases h0 : k0 = k <;> simp [getKey, h0, ih]

theorem getKey_parsedMapFrom (envs : List Str) :
    ∀ (acc : EnvMap) (k : Str),
      getKey (parsedMapFrom acc envs) k =
        match lastEntryValue envs k with
        | some v => some v
        | none => getKey acc k := by
  induction envs with
  | nil => intro acc k; simp [parsedMapFrom, lastEntryValue]
  | cons env rest ih =>
    intro acc k
    cases hkv : splitN2 env with
    | none =>
      rw [parsedMapFrom_cons_none acc env rest hkv, ih acc k]
      cases hl : lastEntryValue rest k <;> simp [lastEntryValue, hl, hkv]
    | some kv0 =>
      obtain ⟨k0, v0⟩ := kv0
      rw [parsedMapFrom_cons_some acc env rest k0 v0 hkv, ih _ k]
      cases hl : lastEntryValue rest k with
      | some v => simp [lastEntryValue, hl, hkv]
      | none =>
        rw [getKey_setKey]
        by_cases h0 : k0 = k <;> simp [lastEntryValue, hl, hkv, h0]

theorem mem_referencedKeys (envs : List Str) (e : Str) (k v : Str)
    (he : e ∈ envs) (hsp : splitN2 e = some (k, v))
    (hp : hasPrefix v ssmPrefix = true) :
    trimPrefix v ssmPrefix ∈ referencedKeys envs := by
  unfold referencedKeys
  refine List.mem_filterMap.mpr ⟨e, he, ?_⟩
  simp [hsp, hp]

theorem referenced_of_mem_parsedMap (envs : List Str) (kv : Str × Str)
    (h : kv ∈ parsedMap envs) (hp : hasPrefix kv.2 ssmPrefix = true) :
    trimPrefix kv.2 ssmPrefix ∈ referencedKeys envs := by
  rcases mem_parsedMapFrom envs [] kv h with h1 | ⟨e, he, hsp⟩
  · simp at h1
  · exact mem_referencedKeys envs e kv.1 kv.2 he hsp hp

theorem resolveEntries_ok (ps : EnvMap) (l : EnvMap) :
    ∀ m : EnvMap, resolveEntries ps l = .ok m →
      m = l.map (resolveOne ps) ∧
      ∀ kv ∈ l, hasPrefix kv.2 ssmPrefix = true →
        (getKey ps (trimPrefix kv.2 ssmPrefix)).isSome := by
  induction l with
  | nil =>
    intro m h
    simp only [resolveEntries] at h
    refine ⟨?_, by simp⟩
    simpa using h.symm
  | cons kv0 rest ih =>
    intro m h
    obtain ⟨k, v⟩ := kv0
    by_cases hp : hasPrefix v ssmPrefix = true
    · cases hget : getKey ps (trimPrefix v ssmPrefix) with
      | none => simp [resolveEntries, hp, hget] at h
      | some val =>
        cases hres : resolveEntries ps rest with
        | error err => simp [resolveEntries, hp, hget, hres] at h
        | ok m0 =>
          simp only [resolveEntries, hp, if_true, hget, hres] at h
          obtain ⟨hmap, hsome⟩ := ih m0 hres
          constructor
          · obtain rfl : (k, val) :: m0 = m := Except.ok.inj h
            rw [hmap]
            simp [resolveOne, valResolve, hp, hget]
          · intro kv hmem hkvp
            rcases List.mem_cons.mp hmem with h1 | h1
            · rw [h1]; simp [hget]
            · exact hsome kv h1 hkvp
    · cases hres : resolveEntries ps rest with
      | error err => simp [resolveEntries, hp, hres] at h
      | ok m0 =>
        simp only [resolveEntries, hp, Bool.false_eq_true, if_false, hres] at h
        obtain ⟨hmap, hsome⟩ := ih m0 hres
        constructor
        · obtain rfl : (k, v) :: m0 = m := Except.ok.inj h
          rw [hmap]
          simp [resolveOne, valResolve, hp]
        · intro kv hmem hkvp
          rcases List.mem_cons.mp hmem with h1 | h1
          · rw [h1] at hkvp; simp at hkvp; exact absurd hkvp hp
          · exact hsome kv h1 hkvp

theorem resolveEntries_err (ps : EnvMap) (l : EnvMap) :
    (∃ kv ∈ l, hasPrefix kv.2 ssmPrefix = true ∧
        getKey ps (trimPrefix kv.2 ssmPrefix) = none) →
    ∃ key, getKey ps key = none ∧
      (∃ kv ∈ l, hasPrefix kv.2 ssmPrefix = true ∧ trimPrefix kv.2 ssmPrefix = key) ∧
      resolveEntries ps l = .error (.parameterNotFound key) := by
  induction l with
  | nil => intro h; simp at h
  | cons kv0 rest ih =>
    intro h
    obtain ⟨k, v⟩ := kv0
    by_cases hp : hasPrefix v ssmPrefix = true
    · cases hget : getKey ps (trimPrefix v ssmPrefix) with
      | none =>
        refine ⟨trimPrefix v ssmPrefix, hget,
          ⟨(k, v), List.mem_cons_self _ _, hp, rfl⟩, ?_⟩
        simp [resolveEntries, hp, hget]
      | some val =>
        have hrest : ∃ kv ∈ rest, hasPrefix kv.2 ssmPrefix = true ∧
            getKey ps (trimPrefix kv.2 ssmPrefix) = none := by
          obtain ⟨kv, hmem, hkvp, hkvn⟩ := h
          rcases List.mem_cons.mp hmem with h1 | h1
          · rw [h1] at hkvn
            simp only at hkvn
            rw [hget] at hkvn
            exact absurd hkvn (by simp)
          · exact ⟨kv, h1, hkvp, hkvn⟩
        obtain ⟨key, hnone, ⟨kv, hm, hh⟩, hrun⟩ := ih hrest
        exact ⟨key, hnone, ⟨kv, List.mem_cons_of_mem _ hm, hh⟩,
          by simp [resolveEntries, hp, hget, hrun]⟩
    · have hrest : ∃ kv ∈ rest, hasPrefix kv.2 ssmPrefix = true ∧
          getKey ps (trimPrefix kv.2 ssmPrefix) = none := by
        obtain ⟨kv, hmem, hkvp, hkvn⟩ := h
        rcases List.mem_cons.mp hmem with h1 | h1
        · rw [h1] at hkvp
          exact absurd hkvp hp
        · exact ⟨kv, h1, hkvp, hkvn⟩
      obtain ⟨key, hnone, ⟨kv, hm, hh⟩, hrun⟩ := ih hrest
      exact ⟨key, hnone, ⟨kv, List.mem_cons_of_mem _ hm, hh⟩,
        by simp [resolveEntries, hp, hrun]⟩

theorem ReplacedEnvT_eq (cli : Client) (envs : List Str)
    (hwf : ∀ e ∈ envs, (splitN2 e).isSome) :
    ReplacedEnvT cli envs =
      if referencedKeys envs = [] then (.ok (parsedMap envs), [])
      else
        ((match batchFetch cli (referencedKeys envs) with
          | .error e => .error e
          | .ok ps => resolveEntries ps (parsedMap envs)),
         [GetParametersInput.mk (referencedKeys envs) true]) := by
  unfold ReplacedEnvT
  rw [parseEnvs_ok envs [] [] hwf]
  simp only [List.nil_append]
  by_cases h : referencedKeys envs = []
  · simp [h, parsedMap]
  · have hlen : ¬ (referencedKeys envs).length = 0 := by
      simpa [List.length_eq_zero] using h
    simp only [hlen, if_false, h]
    cases hb : batchFetch cli (referencedKeys envs) <;> simp [parsedMap]

theorem fetchCalls_of_ne (cli : Client) (envs : List Str)
    (hwf : ∀ e ∈ envs, (splitN2 e).isSome)
    (h : referencedKeys envs ≠ []) :
    fetchCalls cli envs = [GetParametersInput.mk (referencedKeys envs) true] := by
  unfold fetchCalls
  rw [ReplacedEnvT_eq cli envs hwf, if_neg h]

theorem replacedEnv_wf (cli : Client) (envs : List Str) (m : EnvMap)
    (hok : ReplacedEnv cli envs = .ok m) :
    ∀ e ∈ envs, (splitN2 e).isSome := by
  unfold ReplacedEnv ReplacedEnvT at hok
  cases hp : parseEnvs envs [] [] with
  | error err => rw [hp] at hok; simp at hok
  | ok r => exact parseEnvs_wf envs [] [] r hp

theorem replacedEnv_ok_inv (cli : Client) (envs : List Str) (m : EnvMap)
    (hok : ReplacedEnv cli envs = .ok m) :
    (∀ e ∈ envs, (splitN2 e).isSome) ∧
    ((referencedKeys envs = [] ∧ m = parsedMap envs) ∨
      (referencedKeys envs ≠ [] ∧
        ∃ ps, batchFetch cli (referencedKeys envs) = .ok ps ∧
          resolveEntries ps (parsedMap envs) = .ok m)) := by
  have hwf := replacedEnv_wf cli envs m hok
  refine ⟨hwf, ?_⟩
  unfold ReplacedEnv at hok
  rw [ReplacedEnvT_eq cli envs hwf] at hok
  by_cases h : referencedKeys envs = []
  · rw [if_pos h] at hok
    simp only at hok
    exact Or.inl ⟨h, (Except.ok.inj hok).symm⟩
  · rw [if_neg h] at hok
    cases hb : batchFetch cli (referencedKeys envs) with
    | error err => rw [hb] at hok; simp at hok
    | ok ps =>
      rw [hb] at hok
      simp only at hok
      exact Or.inr ⟨h, ps, rfl, hok⟩

theorem serializeEnv_wf (m : EnvMap) (hkeys : ∀ kv ∈ m, '=' ∉ kv.1) :
    ∀ e ∈ serializeEnv m, (splitN2 e).isSome := by
  intro e he
  obtain ⟨kv, hkv, rfl⟩ := List.mem_map.mp he
  rw [splitN2_append kv.1 kv.2 (hkeys kv hkv)]
  rfl

theorem referencedKeys_serializeEnv (m : EnvMap)
    (hkeys : ∀ kv ∈ m, '=' ∉ kv.1)
    (hvals : ∀ kv ∈ m, hasPrefix kv.2 ssmPrefix = false) :
    referencedKeys (serializeEnv m) = [] := by
  unfold referencedKeys
  rw [List.filterMap_eq_nil_iff]
  intro e he
  obtain ⟨kv, hkv, rfl⟩ := List.mem_map.mp he
  rw [splitN2_append kv.1 kv.2 (hkeys kv hkv)]
  simp [hvals kv hkv]

theorem parsedMapFrom_serializeEnv (m : EnvMap) :
    ∀ acc : EnvMap,
      (∀ kv ∈ m, '=' ∉ kv.1) →
      (∀ kv ∈ m, kv.1 ∉ keysOf acc) →
      (keysOf m).Nodup →
      parsedMapFrom acc (serializeEnv m) = acc ++ m := by
  induction m with
  | nil => intro acc _ _ _; simp [serializeEnv, parsedMapFrom]
  | cons kv0 rest ih =>
    intro acc hkeys hdisj hnodup
    obtain ⟨k, v⟩ := kv0
    have hk : '=' ∉ k := hkeys (k, v) (List.mem_cons_self _ _)
    have hsp : splitN2 (k ++ '=' :: v) = some (k, v) := splitN2_append k v hk
    have hser : serializeEnv ((k, v) :: rest)
        = (k ++ '=' :: v) :: serializeEnv rest := rfl
    have hnd : k ∉ keysOf rest ∧ (keysOf rest).Nodup := List.nodup_cons.mp hnodup
    rw [hser, parsedMapFrom_cons_some acc _ _ k v hsp,
      setKey_of_not_mem acc k v (hdisj (k, v) (List.mem_cons_self _ _))]
    have hdisj2 : ∀ kv ∈ rest, kv.1 ∉ keysOf (acc ++ [(k, v)]) := by
      intro kv hkv
      have h1 : kv.1 ∉ keysOf acc := hdisj kv (List.mem_cons_of_mem _ hkv)
      have h2 : kv.1 ≠ k := by
        intro he
        exact hnd.1 (he ▸ List.mem_map_of_mem Prod.fst hkv)
      simp [keysOf, List.mem_append, h2]
      simpa [keysOf] using h1
    rw [ih (acc ++ [(k, v)])
      (fun kv hkv => hkeys kv (List.mem_cons_of_mem _ hkv)) hdisj2 hnd.2]
    rw [List.append_assoc]
    rfl

theorem parsedMap_serializeEnv (m : EnvMap)
    (hkeys : ∀ kv ∈ m, '=' ∉ kv.1) (hnodup : (keysOf m).Nodup) :
    parsedMap (serializeEnv m) = m := by
  unfold parsedMap
  rw [parsedMapFrom_serializeEnv m [] hkeys (by simp [keysOf]) hnodup]
  rfl

theorem replacedEnv_ok_keys (cli : Client) (envs : List Str) (m : EnvMap)
    (hok : ReplacedEnv cli envs = .ok m) :
    (∀ kv ∈ m, '=' ∉ kv.1) ∧ (keysOf m).Nodup := by
  obtain ⟨hwf, hcase⟩ := replacedEnv_ok_inv cli envs m hok
  have hpm_keys : ∀ kv ∈ parsedMap envs, '=' ∉ kv.1 := by
    intro kv hkv
    rcases mem_parsedMapFrom envs [] kv hkv with h1 | ⟨e, he, hsp⟩
    · simp at h1
    · exact (splitN2_some e kv hsp).2
  have hpm_nodup : (keysOf (parsedMap envs)).Nodup :=
    nodup_keysOf_parsedMapFrom envs [] (by simp [keysOf])
  rcases hcase with ⟨hnil, rfl⟩ | ⟨hne, ps, hfetch, hres⟩
  · exact ⟨hpm_keys, hpm_nodup⟩
  · obtain ⟨hmap, hsome⟩ := resolveEntries_ok ps (parsedMap envs) m hres
    subst hmap
    constructor
    · intro kv hkv
      obtain ⟨kv0, hkv0, rfl⟩ := List.mem_map.mp hkv
      exact hpm_keys kv0 hkv0
    · have hkeq : keysOf (List.map (resolveOne ps) (parsedMap envs))
          = keysOf (parsedMap envs) := by
        simp [keysOf, List.map_map, Function.comp, resolveOne]
      rw [hkeq]
      exact hpm_nodup

/-! The ten claims. -/

/-- C1 (amended): for well-formed inputs with at least one value beginning
with ssm://, ReplacedEnv issues exactly one fetch call, and the list of
parameter names passed to it is the list of parameter keys of the
indirected values in entry order, duplicates included.  The original claim
said the duplicates are collapsed; the code appends one key per indirected
entry and never deduplicates. -/
theorem claim_C1 (cli : Client) (envs : List Str)
    (hwf : ∀ e ∈ envs, (splitN2 e).isSome)
    (hind : ∃ e ∈ envs, ∃ p : Str × Str, splitN2 e = some p ∧
      hasPrefix p.2 ssmPrefix = true) :
    fetchCalls cli envs = [GetParametersInput.mk (referencedKeys envs) true] := by
  obtain ⟨e, he, p, hsp, hp⟩ := hind
  have hmem := mem_referencedKeys envs e p.1 p.2 he hsp hp
  exact fetchCalls_of_ne cli envs hwf (List.ne_nil_of_mem hmem)

/-- C1 counterexample: with entries A=ssm://x and B=ssm://x the single
fetch call passes the name list [x, x], which contains a duplicate, so the
names passed are not the set of distinct referenced parameter keys with
duplicates collapsed. -/
theorem claim_C1_counterexample :
    fetchCalls (cliStub [(strL "x", strL "v")])
        [strL "A=ssm://x", strL "B=ssm://x"]
      = [GetParametersInput.mk [strL "x", strL "x"] true] ∧
    ¬ List.Nodup [strL "x", strL "x"] := by
  decide

/-- C1 witness: the amended claim at the concrete duplicate input. -/
theorem claim_C1_witness :
    (∀ e ∈ [strL "A=ssm://x", strL "B=ssm://x"], (splitN2 e).isSome) ∧
    fetchCalls (cliStub [(strL "x", strL "v")])
        [strL "A=ssm://x", strL "B=ssm://x"]
      = [GetParametersInput.mk
          (referencedKeys [strL "A=ssm://x", strL "B=ssm://x"]) true] :=
  ⟨by decide,
    claim_C1 (cliStub [(strL "x", strL "v")]) [strL "A=ssm://x", strL "B=ssm://x"]
      (by decide)
      ⟨strL "A=ssm://x", by decide, (strL "A", strL "ssm://x"), by decide, by decide⟩⟩

/-- C2: for well-formed entries and a successful fetch, the returned
mapping keeps every non-indirected value unchanged and maps every key
whose parsed value begins with ssm:// to the fetched value of the
parameter key obtained by stripping the marker. -/
theorem claim_C2 (cli : Client) (envs : List Str) (ps m : EnvMap) (k : Str)
    (hfetch : batchFetch cli (referencedKeys envs) = .ok ps)
    (hok : ReplacedEnv cli envs = .ok m) :
    getKey m k = (getKey (parsedMap envs) k).bind fun v =>
      if hasPrefix v ssmPrefix then getKey ps (trimPrefix v ssmPrefix)
      else some v := by
  obtain ⟨hwf, hcase⟩ := replacedEnv_ok_inv cli envs m hok
  rcases hcase with ⟨hnil, rfl⟩ | ⟨hne, ps0, hfetch0, hres⟩
  · cases hk : getKey (parsedMap envs) k with
    | none => simp [hk]
    | some v =>
      have hmem := getKey_mem (parsedMap envs) k v hk
      have hp : hasPrefix v ssmPrefix = false := by
        cases hb : hasPrefix v ssmPrefix
        · rfl
        · have hrf := referenced_of_mem_parsedMap envs (k, v) hmem hb
          rw [hnil] at hrf
          simp at hrf
      simp [hk, hp]
  · have hps : ps = ps0 := Except.ok.inj (hfetch.symm.trans hfetch0)
    subst hps
    obtain ⟨hmap, hsome⟩ := resolveEntries_ok ps (parsedMap envs) m hres
    subst hmap
    have hgm : getKey (List.map (resolveOne ps) (parsedMap envs)) k
        = (getKey (parsedMap envs) k).map (valResolve ps) :=
      getKey_map (parsedMap envs) (valResolve ps) k
    rw [hgm]
    cases hk : getKey (parsedMap envs) k with
    | none => simp
    | some v =>
      have hmem := getKey_mem (parsedMap envs) k v hk
      cases hb : hasPrefix v ssmPrefix with
      | false => simp [valResolve, hb]
      | true =>
        have hs := hsome (k, v) hmem hb
        obtain ⟨w, hw⟩ := Option.isSome_iff_exists.mp hs
        simp [valResolve, hb, hw]

/-- C2 witness: resolving A=1, B=ssm://path/to/x against a stub returning
secret for path/to/x yields the mapping A maps to 1 and B maps to secret,
and the resolution equation of the claim holds at key B. -/
theorem claim_C2_witness :
    batchFetch (cliStub [(strL "path/to/x", strL "secret")])
        (referencedKeys [strL "A=1", strL "B=ssm://path/to/x"])
      = .ok [(strL "path/to/x", strL "secret")] ∧
    ReplacedEnv (cliStub [(strL "path/to/x", strL "secret")])
        [strL "A=1", strL "B=ssm://path/to/x"]
      = .ok [(strL "A", strL "1"), (strL "B", strL "secret")] ∧
    getKey [(strL "A", strL "1"), (strL "B", strL "secret")] (strL "B")
      = (getKey (parsedMap [strL "A=1", strL "B=ssm://path/to/x"]) (strL "B")).bind
          (fun v => if hasPrefix v ssmPrefix then
            getKey [(strL "path/to/x", strL "secret")] (trimPrefix v ssmPrefix)
          else some v) :=
  ⟨by decide, by decide,
    claim_C2 (cliStub [(strL "path/to/x", strL "secret")])
      [strL "A=1", strL "B=ssm://path/to/x"]
      [(strL "path/to/x", strL "secret")]
      [(strL "A", strL "1"), (strL "B", strL "secret")]
      (strL "B") (by decide) (by decide)⟩

/-- C3 (amended): idempotence holds provided no resolved value begins with
the marker ssm://: re-running the engine on the re-serialized mapping
returns the same mapping unchanged, with zero fetch calls, for any client.
The original unconditional claim fails when a fetched value itself begins
with ssm://. -/
theorem claim_C3 (cli cli' : Client) (envs : List Str) (m : EnvMap)
    (hok : ReplacedEnv cli envs = .ok m)
    (hclean : ∀ kv ∈ m, hasPrefix kv.2 ssmPrefix = false) :
    ReplacedEnvT cli' (serializeEnv m) = (.ok m, []) := by
  obtain ⟨hkeys, hnodup⟩ := replacedEnv_ok_keys cli envs m hok
  have hwf := serializeEnv_wf m hkeys
  rw [ReplacedEnvT_eq cli' (serializeEnv m) hwf,
    if_pos (referencedKeys_serializeEnv m hkeys hclean),
    parsedMap_serializeEnv m hkeys hnodup]

/-- C3 counterexample: with a store mapping x to ssm://y and y to z,
resolving A=ssm://x succeeds with the mapping A maps to ssm://y, but
re-running on its serialization substitutes again and does not return the
same mapping. -/
theorem claim_C3_counterexample :
    ReplacedEnv (cliStub [(strL "x", strL "ssm://y"), (strL "y", strL "z")])
        [strL "A=ssm://x"] = .ok [(strL "A", strL "ssm://y")] ∧
    ReplacedEnv (cliStub [(strL "x", strL "ssm://y"), (strL "y", strL "z")])
        (serializeEnv [(strL "A", strL "ssm://y")])
      ≠ .ok [(strL "A", strL "ssm://y")] := by
  decide

/-- C3 witness: the amended claim at a concrete marker-free result. -/
theorem claim_C3_witness :
    ReplacedEnv (cliStub []) [strL "W=3"] = .ok [(strL "W", strL "3")] ∧
    (∀ kv ∈ [(strL "W", strL "3")], hasPrefix kv.2 ssmPrefix = false) ∧
    ReplacedEnvT (cliStub []) (serializeEnv [(strL "W", strL "3")])
      = (.ok [(strL "W", strL "3")], []) :=
  ⟨by decide, by decide,
    claim_C3 (cliStub []) (cliStub []) [strL "W=3"] [(strL "W", strL "3")]
      (by decide) (by decide)⟩

/-- C4: with well-formed entries none of whose values begins with ssm://,
ReplacedEnv returns the input parsed as a mapping and issues zero fetch
calls. -/
theorem claim_C4 (cli : Client) (envs : List Str)
    (hwf : ∀ e ∈ envs, (splitN2 e).isSome)
    (hno : ∀ e ∈ envs, ∀ p : Str × Str, splitN2 e = some p →
      hasPrefix p.2 ssmPrefix = false) :
    ReplacedEnvT cli envs = (.ok (parsedMap envs), []) := by
  have hnil : referencedKeys envs = [] := by
    unfold referencedKeys
    rw [List.filterMap_eq_nil_iff]
    intro e he
    cases hsp : splitN2 e with
    | none => simp [hsp]
    | some p => simp [hsp, hno e he p hsp]
  rw [ReplacedEnvT_eq cli envs hwf, if_pos hnil]

/-- C4 witness: the claim at the marker-free input P=v. -/
theorem claim_C4_witness :
    (∀ e ∈ [strL "P=v"], (splitN2 e).isSome) ∧
    ReplacedEnvT (cliStub []) [strL "P=v"] = (.ok (parsedMap [strL "P=v"]), []) :=
  ⟨by decide,
    claim_C4 (cliStub []) [strL "P=v"] (by decide)
      (by
        intro e he p hp
        obtain rfl := List.mem_singleton.mp he
        rw [show splitN2 (strL "P=v") = some (strL "P", strL "v") from by decide] at hp
        obtain rfl := Option.some.inj hp
        decide)⟩

/-- C5: an input containing an entry without the = separator makes
ReplacedEnv fail with a format error carrying an offending entry, with
zero fetch calls and no mapping returned, wherever the entry occurs. -/
theorem claim_C5 (cli : Client) (envs : List Str)
    (h : ∃ e ∈ envs, splitN2 e = none) :
    ∃ e, e ∈ envs ∧ splitN2 e = none ∧
      ReplacedEnvT cli envs = (.error (.invalidEnvVarFormat e), []) := by
  obtain ⟨e, he, hsp, hrun⟩ := parseEnvs_err envs [] [] h
  refine ⟨e, he, hsp, ?_⟩
  unfold ReplacedEnvT
  rw [hrun]

/-- C5 witness: the claim at the input NOVALUE. -/
theorem claim_C5_witness :
    (∃ e ∈ [strL "NOVALUE"], splitN2 e = none) ∧
    ∃ e, e ∈ [strL "NOVALUE"] ∧ splitN2 e = none ∧
      ReplacedEnvT (cliStub []) [strL "NOVALUE"]
        = (.error (.invalidEnvVarFormat e), []) :=
  ⟨by decide, claim_C5 (cliStub []) [strL "NOVALUE"] (by decide)⟩

/-- C6 (amended): if the fetch succeeds but its result omits the parameter
key of some entry of the parsed mapping whose value still begins with
ssm://, ReplacedEnv fails with a not-found error naming a requested and
missing key, and returns no mapping.  The original claim asked this for
any omitted requested key; when a later duplicate entry overwrites the
indirected value, the omission goes undetected and the call can succeed. -/
theorem claim_C6 (cli : Client) (envs : List Str) (ps : EnvMap)
    (hwf : ∀ e ∈ envs, (splitN2 e).isSome)
    (hfetch : batchFetch cli (referencedKeys envs) = .ok ps)
    (hmiss : ∃ kv ∈ parsedMap envs, hasPrefix kv.2 ssmPrefix = true ∧
      getKey ps (trimPrefix kv.2 ssmPrefix) = none) :
    ∃ key, getKey ps key = none ∧ key ∈ referencedKeys envs ∧
      ReplacedEnv cli envs = .error (.parameterNotFound key) := by
  have hne : referencedKeys envs ≠ [] := by
    obtain ⟨kv, hmem, hp, _⟩ := hmiss
    exact List.ne_nil_of_mem (referenced_of_mem_parsedMap envs kv hmem hp)
  obtain ⟨key, hnone, ⟨kv', hm', hp', hk'⟩, hrun⟩ :=
    resolveEntries_err ps (parsedMap envs) hmiss
  refine ⟨key, hnone, ?_, ?_⟩
  · rw [← hk']
    exact referenced_of_mem_parsedMap envs kv' hm' hp'
  · have hre : ReplacedEnv cli envs = resolveEntries ps (parsedMap envs) := by
      unfold ReplacedEnv
      rw [ReplacedEnvT_eq cli envs hwf, if_neg hne, hfetch]
    rw [hre, hrun]

/-- C6 counterexample: with entries A=ssm://x and A=1 the later duplicate
overwrites the indirected value, so although the single fetch requests x
and the successful response omits x, ReplacedEnv returns a mapping instead
of a not-found error. -/
theorem claim_C6_counterexample :
    referencedKeys [strL "A=ssm://x", strL "A=1"] = [strL "x"] ∧
    fetchCalls (cliStub []) [strL "A=ssm://x", strL "A=1"]
      = [GetParametersInput.mk [strL "x"] true] ∧
    batchFetch (cliStub []) [strL "x"] = .ok [] ∧
    getKey ([] : EnvMap) (strL "x") = none ∧
    ReplacedEnv (cliStub []) [strL "A=ssm://x", strL "A=1"]
      = .ok [(strL "A", strL "1")] := by
  decide

/-- C6 witness: the amended claim at the input B=ssm://q, with a stub whose
successful response omits the requested key q. -/
theorem claim_C6_witness :
    (∀ e ∈ [strL "B=ssm://q"], (splitN2 e).isSome) ∧
    batchFetch (cliStub []) (referencedKeys [strL "B=ssm://q"]) = .ok [] ∧
    (∃ kv ∈ parsedMap [strL "B=ssm://q"], hasPrefix kv.2 ssmPrefix = true ∧
      getKey ([] : EnvMap) (trimPrefix kv.2 ssmPrefix) = none) ∧
    ∃ key, getKey ([] : EnvMap) key = none ∧
      key ∈ referencedKeys [strL "B=ssm://q"] ∧
      ReplacedEnv (cliStub []) [strL "B=ssm://q"]
        = .error (.parameterNotFound key) :=
  ⟨by decide, by decide, by decide,
    claim_C6 (cliStub []) [strL "B=ssm://q"] []
      (by decide) (by decide) (by decide)⟩

/-- C7: when a fetch is issued and the response lists a non-empty set of
invalid parameters, ReplacedEnv fails with an invalid-parameters error
carrying exactly that list, and no mapping is returned. -/
theorem claim_C7 (cli : Client) (envs : List Str) (res : GetParametersOutput)
    (hwf : ∀ e ∈ envs, (splitN2 e).isSome)
    (hne : referencedKeys envs ≠ [])
    (hcli : cli (GetParametersInput.mk (referencedKeys envs) true) = .ok res)
    (hinv : res.InvalidParameters ≠ []) :
    ReplacedEnv cli envs = .error (.invalidParameters res.InvalidParameters) := by
  have hb : batchFetch cli (referencedKeys envs)
      = .error (.invalidParameters res.InvalidParameters) := by
    unfold batchFetch
    rw [hcli]
    show (if 0 < res.InvalidParameters.length then
        Except.error (SsmError.invalidParameters res.InvalidParameters)
      else buildFetchResult res.Parameters []) = _
    rw [if_pos (List.length_pos.mpr hinv)]
  unfold ReplacedEnv
  rw [ReplacedEnvT_eq cli envs hwf, if_neg hne, hb]

/-- C7 witness: the claim at the input D=ssm://x with a stub reporting x
invalid. -/
theorem claim_C7_witness :
    (∀ e ∈ [strL "D=ssm://x"], (splitN2 e).isSome) ∧
    referencedKeys [strL "D=ssm://x"] ≠ [] ∧
    cliInvalid (GetParametersInput.mk (referencedKeys [strL "D=ssm://x"]) true)
      = .ok (GetParametersOutput.mk [] [strL "x"]) ∧
    ReplacedEnv cliInvalid [strL "D=ssm://x"]
      = .error (.invalidParameters [strL "x"]) :=
  ⟨by decide, by decide, by decide,
    claim_C7 cliInvalid [strL "D=ssm://x"] (GetParametersOutput.mk [] [strL "x"])
      (by decide) (by decide) (by decide) (by decide)⟩

/-- C8: an entry containing at least one = splits at the first = only: the
key is the text before the first =, the value is everything after it and
may itself contain =, and the entry parses to exactly that pair. -/
theorem claim_C8 (e : Str) (h : '=' ∈ e) :
    ∃ k v, splitN2 e = some (k, v) ∧ e = k ++ '=' :: v ∧ '=' ∉ k ∧
      parsedMap [e] = [(k, v)] := by
  obtain ⟨p, hp⟩ := Option.isSome_iff_exists.mp (splitN2_isSome_of_mem e h)
  obtain ⟨k, v⟩ := p
  obtain ⟨heq, hni⟩ := splitN2_some e (k, v) hp
  refine ⟨k, v, hp, heq, hni, ?_⟩
  unfold parsedMap
  rw [parsedMapFrom_cons_some [] e [] k v hp]
  rfl

/-- C8 witness: the claim at the entry K=a=b, whose key is K and whose
value a=b itself contains =. -/
theorem claim_C8_witness :
    '=' ∈ strL "K=a=b" ∧
    ∃ k v, splitN2 (strL "K=a=b") = some (k, v) ∧
      strL "K=a=b" = k ++ '=' :: v ∧ '=' ∉ k ∧
      parsedMap [strL "K=a=b"] = [(k, v)] :=
  ⟨by decide, claim_C8 (strL "K=a=b") (by decide)⟩

/-- C9: last write wins.  When ReplacedEnv succeeds and the last entry with
key k carries value v, the final mapping assigns k the value derived from
v: v itself when v is not indirected, and the fetched value of the key
obtained by stripping the marker when v is indirected. -/
theorem claim_C9 (cli : Client) (envs : List Str) (m : EnvMap) (k v : Str)
    (hok : ReplacedEnv cli envs = .ok m)
    (hlast : lastEntryValue envs k = some v) :
    ∃ w, getKey m k = some w ∧
      (hasPrefix v ssmPrefix = false → w = v) ∧
      (hasPrefix v ssmPrefix = true →
        ∀ ps, batchFetch cli (referencedKeys envs) = .ok ps →
          getKey ps (trimPrefix v ssmPrefix) = some w) := by
  obtain ⟨hwf, hcase⟩ := replacedEnv_ok_inv cli envs m hok
  have hpm : getKey (parsedMap envs) k = some v := by
    have hh := getKey_parsedMapFrom envs [] k
    rw [hlast] at hh
    exact hh
  rcases hcase with ⟨hnil, rfl⟩ | ⟨hne, ps0, hfetch0, hres⟩
  · refine ⟨v, hpm, fun _ => rfl, ?_⟩
    intro hb ps hfetch
    exfalso
    have hmem := getKey_mem (parsedMap envs) k v hpm
    have hrf := referenced_of_mem_parsedMap envs (k, v) hmem hb
    rw [hnil] at hrf
    simp at hrf
  · obtain ⟨hmap, hsome⟩ := resolveEntries_ok ps0 (parsedMap envs) m hres
    subst hmap
    have hgm : getKey (List.map (resolveOne ps0) (parsedMap envs)) k
        = (getKey (parsedMap envs) k).map (valResolve ps0) :=
      getKey_map (parsedMap envs) (valResolve ps0) k
    refine ⟨valResolve ps0 v, ?_, ?_, ?_⟩
    · rw [hgm, hpm]; rfl
    · intro hb; simp [valResolve, hb]
    · intro hb ps hfetch
      have hps : ps = ps0 := Except.ok.inj (hfetch.symm.trans hfetch0)
      subst hps
      have hmem := getKey_mem (parsedMap envs) k v hpm
      have hs := hsome (k, v) hmem hb
      obtain ⟨w0, hw0⟩ := Option.isSome_iff_exists.mp hs
      simp [valResolve, hb, hw0]

/-- C9 witness: the claim at the duplicate-key input A=1, A=2, where the
final mapping assigns A the later value 2. -/
theorem claim_C9_witness :
    ReplacedEnv (cliStub []) [strL "A=1", strL "A=2"]
      = .ok [(strL "A", strL "2")] ∧
    lastEntryValue [strL "A=1", strL "A=2"] (strL "A") = some (strL "2") ∧
    ∃ w, getKey [(strL "A", strL "2")] (strL "A") = some w ∧
      (hasPrefix (strL "2") ssmPrefix = false → w = strL "2") ∧
      (hasPrefix (strL "2") ssmPrefix = true →
        ∀ ps, batchFetch (cliStub [])
            (referencedKeys [strL "A=1", strL "A=2"]) = .ok ps →
          getKey ps (trimPrefix (strL "2") ssmPrefix) = some w) :=
  ⟨by decide, by decide,
    claim_C9 (cliStub []) [strL "A=1", strL "A=2"] [(strL "A", strL "2")]
      (strL "A") (strL "2") (by decide) (by decide)⟩

/-- C10 (amended): an entry whose value is exactly ssm:// is treated as an
indirection with the empty parameter key, so the single fetch call request
includes the empty string among its names.  If moreover the fetch succeeds
with a result not mapping the empty string, the parsed mapping retains an
entry whose value is exactly ssm://, and every other requested key is
present in the result, then ReplacedEnv fails with a not-found error whose
key is the empty string.  The original claim omitted the last two
conditions: a later duplicate entry can overwrite the marker value so the
call succeeds, and with several missing keys the error can name another
missing key. -/
theorem claim_C10 (cli : Client) (envs : List Str) (ps : EnvMap)
    (hwf : ∀ e ∈ envs, (splitN2 e).isSome)
    (hmem : ∃ e ∈ envs, ∃ k, splitN2 e = some (k, ssmPrefix)) :
    (([] : Str) ∈ referencedKeys envs ∧
      fetchCalls cli envs
        = [GetParametersInput.mk (referencedKeys envs) true]) ∧
    (batchFetch cli (referencedKeys envs) = .ok ps →
      getKey ps [] = none →
      (∃ kv ∈ parsedMap envs, kv.2 = ssmPrefix) →
      (∀ key ∈ referencedKeys envs, key ≠ [] → (getKey ps key).isSome) →
      ReplacedEnv cli envs = .error (.parameterNotFound [])) := by
  obtain ⟨e, he, k, hsp⟩ := hmem
  have hpp : hasPrefix ssmPrefix ssmPrefix = true := by decide
  have htp : trimPrefix ssmPrefix ssmPrefix = [] := by decide
  have hm0 : ([] : Str) ∈ referencedKeys envs := by
    have hmm := mem_referencedKeys envs e k ssmPrefix he hsp hpp
    rwa [htp] at hmm
  have hne : referencedKeys envs ≠ [] := List.ne_nil_of_mem hm0
  refine ⟨⟨hm0, fetchCalls_of_ne cli envs hwf hne⟩, ?_⟩
  intro hfetch hempty hkeep hrest
  obtain ⟨kv, hkvm, hkv2⟩ := hkeep
  have hkvp : hasPrefix kv.2 ssmPrefix = true := by rw [hkv2]; exact hpp
  have hkvn : getKey ps (trimPrefix kv.2 ssmPrefix) = none := by
    rw [hkv2, htp]; exact hempty
  obtain ⟨key, hnone, ⟨kv', hm', hp', hk'⟩, hrun⟩ :=
    resolveEntries_err ps (parsedMap envs) ⟨kv, hkvm, hkvp, hkvn⟩
  have hkey : key ∈ referencedKeys envs := by
    rw [← hk']
    exact referenced_of_mem_parsedMap envs kv' hm' hp'
  have hkeynil : key = [] := by
    by_contra hne2
    have hsk := hrest key hkey hne2
    rw [hnone] at hsk
    simp at hsk
  subst hkeynil
  have hre : ReplacedEnv cli envs = resolveEntries ps (parsedMap envs) := by
    unfold ReplacedEnv
    rw [ReplacedEnvT_eq cli envs hwf, if_neg hne, hfetch]
  rw [hre, hrun]

/-- C10 counterexample: with entries A=ssm:// and A=1 the fetch requests
the empty string, the successful response omits it, yet ReplacedEnv
succeeds, because the later duplicate overwrote the marker value. -/
theorem claim_C10_counterexample :
    fetchCalls (cliStub []) [strL "A=ssm://", strL "A=1"]
      = [GetParametersInput.mk [([] : Str)] true] ∧
    batchFetch (cliStub []) (referencedKeys [strL "A=ssm://", strL "A=1"])
      = .ok [] ∧
    getKey ([] : EnvMap) ([] : Str) = none ∧
    ReplacedEnv (cliStub []) [strL "A=ssm://", strL "A=1"]
      = .ok [(strL "A", strL "1")] := by
  decide

/-- C10 witness: the amended claim at the input C=ssm:// with a stub whose
successful response is empty. -/
theorem claim_C10_witness :
    (∀ e ∈ [strL "C=ssm://"], (splitN2 e).isSome) ∧
    ((([] : Str) ∈ referencedKeys [strL "C=ssm://"] ∧
      fetchCalls (cliStub []) [strL "C=ssm://"]
        = [GetParametersInput.mk (referencedKeys [strL "C=ssm://"]) true]) ∧
    (batchFetch (cliStub []) (referencedKeys [strL "C=ssm://"]) = .ok [] →
      getKey ([] : EnvMap) [] = none →
      (∃ kv ∈ parsedMap [strL "C=ssm://"], kv.2 = ssmPrefix) →
      (∀ key ∈ referencedKeys [strL "C=ssm://"], key ≠ [] →
        (getKey ([] : EnvMap) key).isSome) →
      ReplacedEnv (cliStub []) [strL "C=ssm://"]
        = .error (.parameterNotFound []))) :=
  ⟨by decide,
    claim_C10 (cliStub []) [strL "C=ssm://"] []
      (by decide)
      ⟨strL "C=ssm://", by decide, strL "C", by decide⟩⟩

end Ssmenv
